import Mathlib

/-!
Shallow embedding of the dynamic-array container `vector<T>` from
`src/vector.h` and verification of its specification claims.

Modelling conventions:

* A container state is `Vec α`: the list `elems` of currently live elements
  (slots `[0, size_)` of the C++ object, so `size_ = elems.length`), the
  stored `cap` (`capacity_`), and `dataNull` mirroring `data_ == nullptr`.
* Element copy construction (`new (p) value_type(x)`) may throw; it is
  modelled by an oracle `cp : α → Option α` (`none` = the copy constructor
  throws, `some y` = it produces the copy `y`).  The always-succeeding,
  value-preserving copy constructor of a well-behaved element type is
  `cpId` (`fun a => some a`).
* Operations return their post-state (for the C++ object being mutated),
  an `Except (List α) _` whose error payload is the list of element values
  destroyed during cleanup, in the exact order `reverse_destroy_n`
  destroyed them (newest first), and a trace of heap events:
  `HEvent.alloc n` for `operator new(n * sizeof(value_type))` and
  `HEvent.dealloc b` for `operator delete(p)` with `b` recording whether
  `p` was null.  `operator new` never returns a null pointer, including
  for a zero-byte request.
-/

/-- Observable state of `vector<T>`: live elements, `capacity_`, and
whether `data_` is a null pointer. -/
structure Vec (α : Type) where
  elems : List α
  cap : Nat
  dataNull : Bool
  deriving Repr, DecidableEq

/-- Heap events: `operator new` of a slot count, and `operator delete`
recording whether the deleted pointer was null. -/
inductive HEvent where
  | alloc (slots : Nat)
  | dealloc (wasNull : Bool)
  deriving Repr, DecidableEq

namespace Vec

variable {α : Type}

/-- The `size_` member: number of live elements. -/
def size (v : Vec α) : Nat := v.elems.length

/-- Data-model invariant from the spec: `0 ≤ size ≤ capacity`, and the
storage pointer is null exactly when `capacity == 0`. -/
def Inv (v : Vec α) : Prop := v.size ≤ v.cap ∧ (v.dataNull ↔ v.cap = 0)

instance (v : Vec α) : Decidable v.Inv := by unfold Inv; infer_instance

/-- `vector() noexcept = default`: all members value-initialized. -/
def vecDefault : Vec α := ⟨[], 0, true⟩

/-- The copy oracle of an element type whose copy constructor never throws
and copies values exactly. -/
def cpId : α → Option α := fun a => some a

/-- A concrete faulty copy oracle on `Nat`, used to exercise the
failure paths: copying the value `0` throws, every other value copies
exactly. -/
def cpF : Nat → Option Nat := fun a => if a = 0 then none else some a

/-- Loop body of `uninitialized_copy_n_with_reverse_destroy`: `acc` holds
the values already constructed, newest first.  On a throwing copy the
function returns `.error acc`: `reverse_destroy_n(dest, i)` destroys
exactly the values of `acc` in that order (last constructed first).  On
success it returns the constructed block contents in slot order. -/
def ucrdLoop (cp : α → Option α) : List α → List α → Except (List α) (List α)
  | [], acc => .ok acc.reverse
  | x :: xs, acc =>
    match cp x with
    | some y => ucrdLoop cp xs (y :: acc)
    | none => .error acc

/-- `uninitialized_copy_n_with_reverse_destroy(dest, from, n)` where the
`n` source values are `src`.  Result: the constructed block contents, or
the destroyed values (in destruction order) when a copy threw. -/
def uninitialized_copy_n_with_reverse_destroy (cp : α → Option α)
    (src : List α) : Except (List α) (List α) :=
  ucrdLoop cp src []

/-- `reallocate(new_capacity)`: `operator new` for `new_capacity` slots,
then copy the `size_` live elements into it; on failure the new block is
deleted and the exception propagates.  Returns the new block contents. -/
def reallocate (cp : α → Option α) (v : Vec α) (new_capacity : Nat) :
    Except (List α) (List α) × List HEvent :=
  match uninitialized_copy_n_with_reverse_destroy cp v.elems with
  | .ok ys => (.ok ys, [.alloc new_capacity])
  | .error ds => (.error ds, [.alloc new_capacity, .dealloc false])

/-- `swap_data(new_data, new_capacity)`: destroy the old live elements in
reverse order, `operator delete(data_)` (possibly null), install the new
block (a real pointer, hence non-null) and the new capacity.  `size_` is
not modified. -/
def swap_data (v : Vec α) (new_data : List α) (new_capacity : Nat) :
    Vec α × List HEvent :=
  (⟨new_data, new_capacity, false⟩, [.dealloc v.dataNull])

/-- `push_back(element)`.  Growth path when `size_ == capacity_`:
reallocate to `capacity_ * 2 + 1`, copy-construct the new element into
slot `size_` of the new block (on failure destroy the relocated copies in
reverse and delete the new block), then `swap_data`; finally `size_++`.
Non-growth path: copy-construct into slot `size_` of the current block
(a failure there propagates with nothing constructed), then `size_++`. -/
def push_back (cp : α → Option α) (v : Vec α) (element : α) :
    Vec α × Except (List α) Unit × List HEvent :=
  if v.size = v.cap then
    match reallocate cp v (v.cap * 2 + 1) with
    | (.error ds, evs) => (v, .error ds, evs)
    | (.ok new_data, evs) =>
      match cp element with
      | none => (v, .error new_data.reverse, evs ++ [.dealloc false])
      | some y =>
        let sw := swap_data v (new_data ++ [y]) (v.cap * 2 + 1)
        (⟨new_data ++ [y], v.cap * 2 + 1, false⟩, .ok (), evs ++ sw.2)
  else
    match cp element with
    | none => (v, .error [], [])
    | some y => (⟨v.elems ++ [y], v.cap, v.dataNull⟩, .ok (), [])

/-- `reserve(new_capacity)`: if `new_capacity > capacity_`, reallocate and
swap in the new block; otherwise do nothing. -/
def reserve (cp : α → Option α) (v : Vec α) (new_capacity : Nat) :
    Vec α × Except (List α) Unit × List HEvent :=
  if new_capacity > v.cap then
    match reallocate cp v new_capacity with
    | (.ok new_data, evs) =>
      let sw := swap_data v new_data new_capacity
      (sw.1, .ok (), evs ++ sw.2)
    | (.error ds, evs) => (v, .error ds, evs)
  else (v, .ok (), [])

/-- `shrink_to_fit()`: when `empty()`, the code sets `data_ = nullptr` and
`capacity_ = 0` without calling `operator delete` on the old block; when
`size_ != capacity_`, it reallocates to exactly `size_` slots. -/
def shrink_to_fit (cp : α → Option α) (v : Vec α) :
    Vec α × Except (List α) Unit × List HEvent :=
  if v.size = 0 then
    (⟨v.elems, 0, true⟩, .ok (), [])
  else if v.size ≠ v.cap then
    match reallocate cp v v.size with
    | (.ok new_data, evs) =>
      let sw := swap_data v new_data v.size
      (sw.1, .ok (), evs ++ sw.2)
    | (.error ds, evs) => (v, .error ds, evs)
  else (v, .ok (), [])

/-- Copy constructor `vector(const vector& other)`: `size_ = other.size_`,
`capacity_ = size_`, `data_` is null when `other.capacity_ == 0` and
otherwise a fresh block of `other.size_` slots (`operator new` of zero
bytes still yields a non-null pointer); then the elements are copied with
`uninitialized_copy_n_with_reverse_destroy`, deleting the block and
rethrowing on failure. -/
def copy_ctor (cp : α → Option α) (other : Vec α) :
    Except (List α) (Vec α) × List HEvent :=
  let evAlloc : List HEvent :=
    if other.cap ≠ 0 then [.alloc other.size] else []
  match uninitialized_copy_n_with_reverse_destroy cp other.elems with
  | .ok ys => (.ok ⟨ys, other.size, decide (other.cap = 0)⟩, evAlloc)
  | .error ds => (.error ds, evAlloc ++ [.dealloc (decide (other.cap = 0))])

/-- Move constructor `vector(vector&& other)`: the new object takes the
`size_`, `capacity_` and `data_` of `other`; then `other.data_ = nullptr`
and `other.size_ = 0` — `other.capacity_` is left as it was.  Returns
(new object, source after the move). -/
def move_ctor (other : Vec α) : Vec α × Vec α :=
  (⟨other.elems, other.cap, other.dataNull⟩, ⟨[], other.cap, true⟩)

/-- `swap(other)`: exchanges `data_`, `size_` and `capacity_`.  Returns
(state of `*this` after, state of `other` after). -/
def vswap (a b : Vec α) : Vec α × Vec α :=
  (⟨b.elems, b.cap, b.dataNull⟩, ⟨a.elems, a.cap, a.dataNull⟩)

/-- `std::swap(*(xs + i), *(xs + j))` on the element sequence: exchange
positions `i` and `j` (out-of-range positions are a caller contract
violation; the model leaves the list unchanged there). -/
def swapIdx (xs : List α) (i j : Nat) : List α :=
  match xs[i]?, xs[j]? with
  | some a, some b => (xs.set i b).set j a
  | _, _ => xs

/-- The backward bubbling loop of `insert`: for `last` from
`index + fuel` down to `index + 1`, `std::swap(*last, last[-1])`.
`insert` enters it with `last = prev(end())`, i.e. `fuel = size_ - 1 - index`. -/
def bubbleLoop (index : Nat) : Nat → List α → List α
  | 0, xs => xs
  | fuel + 1, xs => bubbleLoop index fuel (swapIdx xs (index + fuel + 1) (index + fuel))

/-- The shifting loop of range `erase`: while `last_ != end()`,
`std::swap(*(first_++), *(last_++))`.  Swapping preserves the length, so
for `l ≤ size_` the loop runs exactly `size_ - l` times (`fuel`). -/
def eraseLoop : Nat → List α → Nat → Nat → List α
  | 0, xs, _, _ => xs
  | fuel + 1, xs, f, l => eraseLoop fuel (swapIdx xs f l) (f + 1) (l + 1)

/-- `erase(first, last)` with `first = begin() + f`, `last = begin() + l`:
shift the tail into the erased range by pairwise swaps, destroy the
now-trailing slots `[f + (size_ - l), size_)`, set
`size_ = first_ - begin()`.  Returns (post-state, index of the returned
iterator `no_const(first)`). -/
def erase_range (v : Vec α) (f l : Nat) : Vec α × Nat :=
  let shifted := eraseLoop (v.size - l) v.elems f l
  let newSize := f + (v.size - l)
  (⟨shifted.take newSize, v.cap, v.dataNull⟩, f)

/-- Single-element `erase(pos)` with `pos = begin() + i`: delegates to
`erase(pos, std::next(pos))`. -/
def erase_at (v : Vec α) (i : Nat) : Vec α × Nat :=
  erase_range v i (i + 1)

/-- `insert(pos, value)` with `pos = begin() + index`: record `index`,
`push_back(value)` (an exception there propagates with the container as
`push_back` left it), then bubble the appended element backward from
`prev(end())` to position `index`.  On success returns the index of the
returned iterator. -/
def insert (cp : α → Option α) (v : Vec α) (index : Nat) (value : α) :
    Vec α × Except (List α) Nat × List HEvent :=
  match push_back cp v value with
  | (v', .ok _, evs) =>
    (⟨bubbleLoop index (v'.size - 1 - index) v'.elems, v'.cap, v'.dataNull⟩,
      .ok index, evs)
  | (v', .error ds, evs) => (v', .error ds, evs)

/-- Folding `push_back` with a non-throwing copy constructor over a list
of values, starting from a given state. -/
def pushAll (v : Vec α) (xs : List α) : Vec α :=
  xs.foldl (fun w x => (push_back cpId w x).1) v

/-- The constructed-then-destroyed relation of a failed bulk copy: the
source splits as `pre ++ bad :: post`, the copy of `bad` threw, and `ds`
(the destroyed values, in destruction order) reversed is exactly the list
of copies of `pre`, in construction order. -/
def DestroyedRev (cp : α → Option α) (src ds : List α) : Prop :=
  ∃ pre bad post, src = pre ++ bad :: post ∧ cp bad = none ∧
    List.Forall₂ (fun a b => cp a = some b) pre ds.reverse

end Vec

namespace Vec

variable {α : Type}

/-- With the identity copy constructor, the bulk-copy loop succeeds and
reproduces the source after the already-built prefix. -/
theorem ucrdLoop_cpId (xs acc : List α) :
    ucrdLoop cpId xs acc = .ok (acc.reverse ++ xs) := by
  induction xs generalizing acc with
  | nil => simp [ucrdLoop]
  | cons x xs ih => simp [ucrdLoop, cpId, ih]

/-- With the identity copy constructor, the bulk copy reproduces the
source exactly. -/
theorem ucrd_cpId (xs : List α) :
    uninitialized_copy_n_with_reverse_destroy cpId xs = .ok xs := by
  simp [uninitialized_copy_n_with_reverse_destroy, ucrdLoop_cpId]

/-- A successful bulk-copy loop produced one copy per source element, in
order, appended after the already-built prefix. -/
theorem ucrdLoop_ok (cp : α → Option α) (xs : List α) :
    ∀ (acc ys : List α), ucrdLoop cp xs acc = .ok ys →
      ∃ cs, List.Forall₂ (fun a b => cp a = some b) xs cs ∧
        ys = acc.reverse ++ cs := by
  induction xs with
  | nil =>
    intro acc ys h
    simp [ucrdLoop] at h
    exact ⟨[], List.Forall₂.nil, by simp [h.symm]⟩
  | cons x xs ih =>
    intro acc ys h
    unfold ucrdLoop at h
    cases hx : cp x with
    | none => rw [hx] at h; exact absurd h (by simp)
    | some y =>
      rw [hx] at h
      obtain ⟨cs, hall, hys⟩ := ih (y :: acc) ys h
      exact ⟨y :: cs, List.Forall₂.cons hx hall, by simp [hys]⟩

/-- A successful bulk copy is a list of copies of the source, in order. -/
theorem ucrd_ok (cp : α → Option α) (xs ys : List α)
    (h : uninitialized_copy_n_with_reverse_destroy cp xs = .ok ys) :
    List.Forall₂ (fun a b => cp a = some b) xs ys := by
  obtain ⟨cs, hall, hys⟩ := ucrdLoop_ok cp xs [] ys h
  simpa [hys] using hall

/-- A failing bulk-copy loop: the source splits at the element whose copy
threw, and the reported destroyed values are the copies of the preceding
elements (reversed) on top of the already-built prefix. -/
theorem ucrdLoop_error (cp : α → Option α) (xs : List α) :
    ∀ (acc ds : List α), ucrdLoop cp xs acc = .error ds →
      ∃ pre bad post cs, xs = pre ++ bad :: post ∧ cp bad = none ∧
        List.Forall₂ (fun a b => cp a = some b) pre cs ∧
        ds = cs.reverse ++ acc := by
  induction xs with
  | nil => intro acc ds h; exact absurd h (by simp [ucrdLoop])
  | cons x xs ih =>
    intro acc ds h
    unfold ucrdLoop at h
    cases hx : cp x with
    | none =>
      rw [hx] at h
      refine ⟨[], x, xs, [], by simp, hx, List.Forall₂.nil, ?_⟩
      simpa using (Except.error.inj h).symm
    | some y =>
      rw [hx] at h
      obtain ⟨pre, bad, post, cs, hsplit, hbad, hall, hds⟩ := ih (y :: acc) ds h
      refine ⟨x :: pre, bad, post, y :: cs, by simp [hsplit], hbad,
        List.Forall₂.cons hx hall, by simp [hds]⟩

/-- A failing bulk copy destroyed, in reverse construction order, exactly
the copies it had built before the throwing element. -/
theorem ucrd_error (cp : α → Option α) (xs ds : List α)
    (h : uninitialized_copy_n_with_reverse_destroy cp xs = .error ds) :
    DestroyedRev cp xs ds := by
  obtain ⟨pre, bad, post, cs, hsplit, hbad, hall, hds⟩ :=
    ucrdLoop_error cp xs [] ds h
  refine ⟨pre, bad, post, hsplit, hbad, ?_⟩
  have : ds.reverse = cs := by simp [hds]
  rwa [this]

/-- Full evaluation of `push_back` with the identity copy constructor:
always succeeds, appends the element, grows `capacity_` to `2c+1` exactly
when `size_ == capacity_` (allocating a new block and deleting the old
pointer), and otherwise leaves capacity and storage alone. -/
theorem push_back_cpId (v : Vec α) (x : α) :
    push_back cpId v x =
      (⟨v.elems ++ [x],
        if v.size = v.cap then 2 * v.cap + 1 else v.cap,
        if v.size = v.cap then false else v.dataNull⟩,
       .ok (),
       if v.size = v.cap then [.alloc (v.cap * 2 + 1), .dealloc v.dataNull]
       else []) := by
  by_cases h : v.size = v.cap <;>
    simp [push_back, reallocate, ucrd_cpId, cpId, swap_data, h, Nat.mul_comm]

/-- `pushAll` appends the given values, in order. -/
theorem pushAll_elems (v : Vec α) (xs : List α) :
    (pushAll v xs).elems = v.elems ++ xs := by
  induction xs generalizing v with
  | nil => simp [pushAll]
  | cons x xs ih =>
    show (pushAll (push_back cpId v x).1 xs).elems = _
    rw [ih, push_back_cpId]
    simp

/-- `pushAll` keeps every capacity of the form `2^k - 1`. -/
theorem pushAll_cap (v : Vec α) (xs : List α) (h : ∃ k, v.cap = 2 ^ k - 1) :
    ∃ k, (pushAll v xs).cap = 2 ^ k - 1 := by
  induction xs generalizing v with
  | nil => simpa [pushAll] using h
  | cons x xs ih =>
    show ∃ k, (pushAll (push_back cpId v x).1 xs).cap = 2 ^ k - 1
    apply ih
    rw [push_back_cpId]
    obtain ⟨k, hk⟩ := h
    by_cases hg : v.size = v.cap
    · refine ⟨k + 1, ?_⟩
      show (if v.size = v.cap then 2 * v.cap + 1 else v.cap) = 2 ^ (k + 1) - 1
      rw [if_pos hg, hk, pow_succ]
      have h2 : 0 < 2 ^ k := Nat.pos_pow_of_pos k (by omega)
      omega
    · refine ⟨k, ?_⟩
      show (if v.size = v.cap then 2 * v.cap + 1 else v.cap) = 2 ^ k - 1
      rw [if_neg hg, hk]

end Vec

namespace Vec

variable {α : Type}

/-- Setting a slot at or beyond `n` does not change the first `n` slots. -/
theorem set_take_of_le (xs : List α) (i n : Nat) (a : α) (h : n ≤ i) :
    (xs.set i a).take n = xs.take n := by
  apply List.ext_getElem?
  intro m
  simp only [List.getElem?_take, List.getElem?_set]
  by_cases hm : m < n
  · simp [hm, show ¬ i = m by omega]
  · simp [hm]

/-- Swapping preserves the length. -/
theorem length_swapIdx (xs : List α) (i j : Nat) :
    (swapIdx xs i j).length = xs.length := by
  unfold swapIdx
  cases hx : xs[i]? <;> cases hy : xs[j]? <;> simp

/-- Swapping slots at or beyond `n` does not change the first `n` slots. -/
theorem take_swapIdx_of_le (xs : List α) {i j n : Nat} (hi : n ≤ i) (hj : n ≤ j) :
    (swapIdx xs i j).take n = xs.take n := by
  unfold swapIdx
  cases hx : xs[i]? <;> cases hy : xs[j]? <;> try rfl
  rw [set_take_of_le _ _ _ _ hj, set_take_of_le _ _ _ _ hi]

/-- Swapping slots below `n` does not change the slots from `n` on. -/
theorem drop_swapIdx_of_lt (xs : List α) {i j n : Nat} (hi : i < n) (hj : j < n) :
    (swapIdx xs i j).drop n = xs.drop n := by
  unfold swapIdx
  cases hx : xs[i]? <;> cases hy : xs[j]? <;> try rfl
  rw [List.drop_set, if_pos hj, List.drop_set, if_pos hi]

/-- After a swap, slot `j` holds the old value of slot `i`. -/
theorem getElem?_swapIdx_fst (xs : List α) {i j : Nat}
    (hi : i < xs.length) (hj : j < xs.length) :
    (swapIdx xs i j)[j]? = xs[i]? := by
  unfold swapIdx
  rw [List.getElem?_eq_getElem hi, List.getElem?_eq_getElem hj]
  simp [List.getElem?_set, List.length_set, hj, List.getElem?_eq_getElem hi]

/-- After a swap, slot `i` holds the old value of slot `j`. -/
theorem getElem?_swapIdx_snd (xs : List α) {i j : Nat}
    (hi : i < xs.length) (hj : j < xs.length) :
    (swapIdx xs i j)[i]? = xs[j]? := by
  unfold swapIdx
  rw [List.getElem?_eq_getElem hi, List.getElem?_eq_getElem hj]
  by_cases hij : j = i
  · subst hij
    simp [List.getElem?_set, List.length_set, hj]
  · simp [List.getElem?_set, List.length_set, hij, hi,
      List.getElem?_eq_getElem hj]

/-- The `erase` shifting loop moves the tail `[f+g, length)` down to
position `f`, leaving some residue of length `g` (the slots that will be
destroyed) after it. -/
theorem eraseLoop_spec : ∀ (fuel g : Nat) (xs : List α) (f : Nat),
    xs.length = f + g + fuel →
    ∃ r : List α, r.length = g ∧
      eraseLoop fuel xs f (f + g) = xs.take f ++ xs.drop (f + g) ++ r := by
  intro fuel
  induction fuel with
  | zero =>
    intro g xs f h
    refine ⟨xs.drop f, by simp [h], ?_⟩
    rw [List.drop_eq_nil_of_le (by omega)]
    simp [eraseLoop]
  | succ fuel ih =>
    intro g xs f h
    have hf : f < xs.length := by omega
    have hfg : f + g < xs.length := by omega
    have hlen : (swapIdx xs f (f + g)).length = (f + 1) + g + fuel := by
      rw [length_swapIdx]; omega
    obtain ⟨r, hr, heq⟩ := ih g (swapIdx xs f (f + g)) (f + 1) hlen
    refine ⟨r, hr, ?_⟩
    show eraseLoop fuel (swapIdx xs f (f + g)) (f + 1) (f + g + 1) = _
    rw [show f + g + 1 = (f + 1) + g from by omega, heq]
    have h1 : (swapIdx xs f (f + g)).take (f + 1) =
        xs.take f ++ (xs[f + g]?).toList := by
      rw [List.take_succ, take_swapIdx_of_le xs (Nat.le_refl f) (by omega),
        getElem?_swapIdx_snd xs hf hfg]
    have h2 : (swapIdx xs f (f + g)).drop (f + 1 + g) = xs.drop (f + g + 1) := by
      rw [show f + 1 + g = f + g + 1 from by omega]
      exact drop_swapIdx_of_lt xs (by omega) (by omega)
    have h3 : xs.drop (f + g) = (xs[f + g]?).toList ++ xs.drop (f + g + 1) := by
      rw [List.getElem?_eq_getElem hfg, List.drop_eq_getElem_cons hfg]
      simp
    rw [h1, h2, h3]
    simp

end Vec

namespace Vec

variable {α : Type}

/-- The `insert` bubbling loop moves the element at position
`index + fuel` down to position `index`, shifting the elements of
`[index, index + fuel)` up by one slot each. -/
theorem bubbleLoop_spec : ∀ (fuel : Nat) (xs : List α) (index : Nat),
    index + fuel < xs.length →
    bubbleLoop index fuel xs =
      xs.take index ++ (xs[index + fuel]?).toList ++
        ((xs.take (index + fuel)).drop index) ++ xs.drop (index + fuel + 1) := by
  intro fuel
  induction fuel with
  | zero =>
    intro xs index h
    have e1 : (xs.take index).drop index = [] :=
      List.drop_eq_nil_of_le (by rw [List.length_take]; exact Nat.min_le_left _ _)
    show xs = _
    rw [Nat.add_zero, e1, List.append_nil, ← List.take_succ,
      List.take_append_drop]
  | succ fuel ih =>
    intro xs index h
    simp only [← Nat.add_assoc] at h ⊢
    have hi : index + fuel + 1 < xs.length := h
    have hj : index + fuel < xs.length := by omega
    have hlen : (swapIdx xs (index + fuel + 1) (index + fuel)).length = xs.length :=
      length_swapIdx xs _ _
    show bubbleLoop index fuel (swapIdx xs (index + fuel + 1) (index + fuel)) = _
    rw [ih (swapIdx xs (index + fuel + 1) (index + fuel)) index (by omega)]
    have h1 : (swapIdx xs (index + fuel + 1) (index + fuel)).take index =
        xs.take index := take_swapIdx_of_le xs (by omega) (by omega)
    have h2 : (swapIdx xs (index + fuel + 1) (index + fuel))[index + fuel]? =
        xs[index + fuel + 1]? := getElem?_swapIdx_fst xs hi hj
    have h3 : (swapIdx xs (index + fuel + 1) (index + fuel)).take (index + fuel) =
        xs.take (index + fuel) := take_swapIdx_of_le xs (by omega) (by omega)
    have hbound : index + fuel + 1 < (swapIdx xs (index + fuel + 1) (index + fuel)).length := by
      rw [hlen]; omega
    obtain ⟨a, ha⟩ : ∃ a, xs[index + fuel]? = some a :=
      ⟨_, List.getElem?_eq_getElem hj⟩
    have h4b : (swapIdx xs (index + fuel + 1) (index + fuel))[index + fuel + 1]? =
        some a := (getElem?_swapIdx_snd xs hi hj).trans ha
    have h4 : (swapIdx xs (index + fuel + 1) (index + fuel)).drop (index + fuel + 1) =
        a :: xs.drop (index + fuel + 1 + 1) := by
      rw [List.drop_eq_getElem_cons hbound]
      rw [List.getElem?_eq_getElem hbound] at h4b
      rw [Option.some.inj h4b]
      rw [drop_swapIdx_of_lt xs (by omega) (by omega)]
    have h5 : (xs.take (index + fuel + 1)).drop index =
        (xs.take (index + fuel)).drop index ++ (xs[index + fuel]?).toList := by
      rw [List.take_succ]
      exact List.drop_append_of_le_length
        (by rw [List.length_take]; exact Nat.le_min.mpr ⟨by omega, by omega⟩)
    rw [h1, h2, h3, h4, h5, ha]
    simp

/-- `erase(first, last)` keeps the elements before the range and shifts
the elements after the range down onto it; the destroyed trailing slots
are dropped. -/
theorem erase_range_elems (v : Vec α) {f l : Nat} (hfl : f ≤ l) (hl : l ≤ v.size) :
    (erase_range v f l).1.elems = v.elems.take f ++ v.elems.drop l := by
  have hsz : v.size = v.elems.length := rfl
  obtain ⟨r, hr, heq⟩ := eraseLoop_spec (v.size - l) (l - f) v.elems f (by omega)
  rw [show f + (l - f) = l from by omega] at heq
  show (eraseLoop (v.size - l) v.elems f l).take (f + (v.size - l)) = _
  rw [heq]
  exact List.take_left' (by
    rw [List.length_append, List.length_take, List.length_drop]
    rw [Nat.min_eq_left (by omega)]
    omega)

/-- Full evaluation of `insert` with the identity copy constructor at a
valid position: the value lands at `index`, everything from `index` on is
shifted up one slot, capacity changes exactly as in `push_back`. -/
theorem insert_cpId (v : Vec α) {index : Nat} (x : α) (h : index ≤ v.size) :
    insert cpId v index x =
      (⟨v.elems.take index ++ x :: v.elems.drop index,
        if v.size = v.cap then 2 * v.cap + 1 else v.cap,
        if v.size = v.cap then false else v.dataNull⟩,
       .ok index,
       if v.size = v.cap then [.alloc (v.cap * 2 + 1), .dealloc v.dataNull]
       else []) := by
  have hsz : v.size = v.elems.length := rfl
  unfold insert
  rw [push_back_cpId]
  dsimp only
  have hfuel : (⟨v.elems ++ [x],
      if v.size = v.cap then 2 * v.cap + 1 else v.cap,
      if v.size = v.cap then false else v.dataNull⟩ : Vec α).size - 1 - index =
      v.size - index := by
    simp [size, List.length_append]
  rw [hfuel]
  have hb : index + (v.size - index) < (v.elems ++ [x]).length := by
    rw [List.length_append]; simp; omega
  rw [bubbleLoop_spec (v.size - index) (v.elems ++ [x]) index hb]
  rw [show index + (v.size - index) = v.size from by omega]
  have e1 : (v.elems ++ [x]).take index = v.elems.take index :=
    List.take_append_of_le_length (by omega)
  have e2 : (v.elems ++ [x])[v.size]? = some x := by
    rw [hsz]; exact List.getElem?_concat_length v.elems x
  have e3 : (v.elems ++ [x]).take v.size = v.elems := by
    rw [hsz]; exact List.take_left v.elems [x]
  have e4 : (v.elems ++ [x]).drop (v.size + 1) = [] :=
    List.drop_eq_nil_of_le (by rw [List.length_append]; simp; omega)
  rw [e1, e2, e3, e4]
  simp

end Vec

namespace Vec

variable {α : Type}

/-- Two container states with equal fields are equal. -/
theorem eq_of_fields {v w : Vec α} (h1 : v.elems = w.elems)
    (h2 : v.cap = w.cap) (h3 : v.dataNull = w.dataNull) : v = w := by
  cases v; cases w; cases h1; cases h2; cases h3; rfl

/-- Full evaluation of `reserve` with the identity copy constructor. -/
theorem reserve_cpId (v : Vec α) (n : Nat) :
    reserve cpId v n =
      if n > v.cap then (⟨v.elems, n, false⟩, .ok (), [.alloc n, .dealloc v.dataNull])
      else (v, .ok (), []) := by
  by_cases h : n > v.cap <;> simp [reserve, reallocate, ucrd_cpId, swap_data, h]

end Vec

/-- Claim C3: appending any finite sequence of values via `push_back` to
an initially default-constructed vector (with a non-throwing,
value-preserving element copy constructor) yields `size` equal to the
number of calls and, elementwise, exactly the pushed values in call
order. -/
theorem claim_C3 {α : Type} (xs : List α) :
    (Vec.pushAll Vec.vecDefault xs).elems = xs ∧
    (Vec.pushAll Vec.vecDefault xs).size = xs.length := by
  have h : (Vec.pushAll Vec.vecDefault xs).elems = xs := by
    rw [Vec.pushAll_elems]; rfl
  exact ⟨h, by show (Vec.pushAll Vec.vecDefault xs).elems.length = _; rw [h]⟩

/-- Claim C4: `push_back` changes `capacity` exactly when
`size == capacity`, in which case the new capacity is `2*capacity + 1`
(hence strictly larger); consequently every capacity reachable by
repeated `push_back` from an empty vector has the form `2^k - 1`, i.e.
the growth sequence is `0 → 1 → 3 → 7 → 15 → …`. -/
theorem claim_C4 {α : Type} (v : Vec α) (x : α) :
    ((Vec.push_back Vec.cpId v x).1.cap =
      if v.size = v.cap then 2 * v.cap + 1 else v.cap) ∧
    (v.size = v.cap →
      (Vec.push_back Vec.cpId v x).1.cap = 2 * v.cap + 1 ∧
      v.cap < (Vec.push_back Vec.cpId v x).1.cap) ∧
    (v.size ≠ v.cap → (Vec.push_back Vec.cpId v x).1.cap = v.cap) ∧
    (∀ ys : List α, ∃ k, (Vec.pushAll Vec.vecDefault ys).cap = 2 ^ k - 1) := by
  rw [Vec.push_back_cpId]
  refine ⟨rfl, ?_, ?_, ?_⟩
  · intro h
    show (if v.size = v.cap then 2 * v.cap + 1 else v.cap) = _ ∧
      v.cap < if v.size = v.cap then 2 * v.cap + 1 else v.cap
    rw [if_pos h]
    omega
  · intro h
    show (if v.size = v.cap then 2 * v.cap + 1 else v.cap) = _
    rw [if_neg h]
  · intro ys
    exact Vec.pushAll_cap Vec.vecDefault ys ⟨0, rfl⟩

/-- Claim C4 witness: a vector with `size == capacity == 1` grows to
capacity `3` on `push_back`. -/
theorem claim_C4_witness :
    (⟨[1], 1, false⟩ : Vec Nat).size = (⟨[1], 1, false⟩ : Vec Nat).cap ∧
    (Vec.push_back Vec.cpId (⟨[1], 1, false⟩ : Vec Nat) 2).1.cap = 2 * 1 + 1 ∧
    1 < (Vec.push_back Vec.cpId (⟨[1], 1, false⟩ : Vec Nat) 2).1.cap :=
  ⟨rfl, (claim_C4 (⟨[1], 1, false⟩ : Vec Nat) 2).2.1 rfl⟩

/-- Claim C6: `reserve n` with `n > capacity` sets capacity to exactly
`n`, keeping size and the element sequence; with `n ≤ capacity` it is a
no-op; hence for every `n ≥ size`, afterwards `capacity ≥ n` with the
elements unchanged. -/
theorem claim_C6 {α : Type} (v : Vec α) (n : Nat) :
    (n > v.cap →
      (Vec.reserve Vec.cpId v n).1.elems = v.elems ∧
      (Vec.reserve Vec.cpId v n).1.cap = n ∧
      (Vec.reserve Vec.cpId v n).1.size = v.size ∧
      (Vec.reserve Vec.cpId v n).2.1 = .ok ()) ∧
    (n ≤ v.cap → (Vec.reserve Vec.cpId v n).1 = v ∧
      (Vec.reserve Vec.cpId v n).2.1 = .ok ()) ∧
    (v.size ≤ n → n ≤ (Vec.reserve Vec.cpId v n).1.cap ∧
      (Vec.reserve Vec.cpId v n).1.elems = v.elems) := by
  rw [Vec.reserve_cpId]
  by_cases h : n > v.cap
  · rw [if_pos h]
    exact ⟨fun _ => ⟨rfl, rfl, rfl, rfl⟩, fun hle => absurd h (by omega),
      fun _ => ⟨Nat.le_refl n, rfl⟩⟩
  · rw [if_neg h]
    exact ⟨fun hgt => absurd hgt h, fun _ => ⟨rfl, rfl⟩,
      fun _ => ⟨by show n ≤ v.cap; omega, rfl⟩⟩

/-- Claim C6 witness: `reserve 6` on a vector of size 2 and capacity 2
yields capacity exactly 6 with the elements kept. -/
theorem claim_C6_witness :
    6 > (⟨[4, 5], 2, false⟩ : Vec Nat).cap ∧
    ((Vec.reserve Vec.cpId (⟨[4, 5], 2, false⟩ : Vec Nat) 6).1.elems = [4, 5] ∧
      (Vec.reserve Vec.cpId (⟨[4, 5], 2, false⟩ : Vec Nat) 6).1.cap = 6 ∧
      (Vec.reserve Vec.cpId (⟨[4, 5], 2, false⟩ : Vec Nat) 6).1.size =
        (⟨[4, 5], 2, false⟩ : Vec Nat).size ∧
      (Vec.reserve Vec.cpId (⟨[4, 5], 2, false⟩ : Vec Nat) 6).2.1 = .ok ()) :=
  ⟨by decide, (claim_C6 (⟨[4, 5], 2, false⟩ : Vec Nat) 6).1 (by decide)⟩

/-- Claim C10: the member `swap` exchanges the complete observable states
of the two vectors (it is a total function, hence never fails), and
swapping twice restores both originals. -/
theorem claim_C10 {α : Type} (a b : Vec α) :
    Vec.vswap a b = (b, a) ∧
    Vec.vswap (Vec.vswap a b).1 (Vec.vswap a b).2 = (a, b) :=
  ⟨rfl, rfl⟩

/-- Claim C7: `erase(first, last)` on a valid range keeps the elements
before the range, shifts the survivors after the range down to close the
gap (values and relative order preserved), reduces `size` by the range
length, and returns the index of the start of the erased range — the slot now
holding the first survivor, or the new end when the range reached the
end; `first == last` is a no-op. -/
theorem claim_C7 {α : Type} (v : Vec α) (f l : Nat) (hfl : f ≤ l) (hl : l ≤ v.size) :
    (Vec.erase_range v f l).1.elems = v.elems.take f ++ v.elems.drop l ∧
    (Vec.erase_range v f l).1.size = v.size - (l - f) ∧
    (Vec.erase_range v f l).2 = f ∧
    (Vec.erase_range v f l).1.elems[f]? = v.elems[l]? ∧
    (f = l → (Vec.erase_range v f l).1 = v) := by
  have hsz : v.size = v.elems.length := rfl
  have he := Vec.erase_range_elems v hfl hl
  have hlf : (v.elems.take f).length = f := by
    rw [List.length_take]; exact Nat.min_eq_left (by omega)
  refine ⟨he, ?_, rfl, ?_, ?_⟩
  · show (Vec.erase_range v f l).1.elems.length = _
    rw [he, List.length_append, hlf, List.length_drop]
    omega
  · rw [he, List.getElem?_append_right (Nat.le_of_eq hlf), hlf, Nat.sub_self,
      List.getElem?_drop, Nat.add_zero]
  · intro hfe
    subst hfe
    exact Vec.eq_of_fields (by rw [he, List.take_append_drop]) rfl rfl

/-- Claim C7 witness: erasing the range `[1, 3)` from `[1,2,3,4,5]`
yields `[1,4,5]`, size 3, and returns index 1, where the old element 4
now lives. -/
theorem claim_C7_witness :
    1 ≤ 3 ∧ 3 ≤ (⟨[1, 2, 3, 4, 5], 7, false⟩ : Vec Nat).size ∧
    ((Vec.erase_range (⟨[1, 2, 3, 4, 5], 7, false⟩ : Vec Nat) 1 3).1.elems =
        [1] ++ [4, 5] ∧
      (Vec.erase_range (⟨[1, 2, 3, 4, 5], 7, false⟩ : Vec Nat) 1 3).1.size =
        5 - (3 - 1) ∧
      (Vec.erase_range (⟨[1, 2, 3, 4, 5], 7, false⟩ : Vec Nat) 1 3).2 = 1 ∧
      (Vec.erase_range (⟨[1, 2, 3, 4, 5], 7, false⟩ : Vec Nat) 1 3).1.elems[1]? =
        ([1, 2, 3, 4, 5] : List Nat)[3]? ∧
      (1 = 3 → (Vec.erase_range (⟨[1, 2, 3, 4, 5], 7, false⟩ : Vec Nat) 1 3).1 =
        ⟨[1, 2, 3, 4, 5], 7, false⟩)) :=
  ⟨by decide, by decide,
    claim_C7 (⟨[1, 2, 3, 4, 5], 7, false⟩ : Vec Nat) 1 3 (by decide) (by decide)⟩

/-- Claim C8: for any valid position and any value, `insert(pos, v)`
immediately followed by `erase(pos)` (at the iterator `insert` returned)
restores the exact prior element sequence and size. -/
theorem claim_C8 {α : Type} (v : Vec α) (idx : Nat) (x : α) (h : idx ≤ v.size) :
    (Vec.erase_at (Vec.insert Vec.cpId v idx x).1 idx).1.elems = v.elems ∧
    (Vec.erase_at (Vec.insert Vec.cpId v idx x).1 idx).1.size = v.size := by
  have hsz : v.size = v.elems.length := rfl
  have hins := Vec.insert_cpId v x h
  have hv1e : (Vec.insert Vec.cpId v idx x).1.elems =
      v.elems.take idx ++ x :: v.elems.drop idx := by rw [hins]
  have hlf : (v.elems.take idx).length = idx := by
    rw [List.length_take]; exact Nat.min_eq_left (by omega)
  have hlen1 : (Vec.insert Vec.cpId v idx x).1.size = v.size + 1 := by
    show (Vec.insert Vec.cpId v idx x).1.elems.length = _
    rw [hv1e, List.length_append, hlf, List.length_cons, List.length_drop]
    omega
  have her := Vec.erase_range_elems (Vec.insert Vec.cpId v idx x).1
    (show idx ≤ idx + 1 by omega) (show idx + 1 ≤ (Vec.insert Vec.cpId v idx x).1.size by omega)
  have t1 : ((Vec.insert Vec.cpId v idx x).1.elems).take idx = v.elems.take idx := by
    rw [hv1e, List.take_append_of_le_length (Nat.le_of_eq hlf.symm), List.take_take,
      Nat.min_self]
  have t2 : ((Vec.insert Vec.cpId v idx x).1.elems).drop (idx + 1) =
      v.elems.drop idx := by
    rw [hv1e, show idx + 1 = (v.elems.take idx).length + 1 from by rw [hlf],
      List.drop_append]
    rfl
  have hE : (Vec.erase_at (Vec.insert Vec.cpId v idx x).1 idx).1.elems = v.elems := by
    show (Vec.erase_range (Vec.insert Vec.cpId v idx x).1 idx (idx + 1)).1.elems = _
    rw [her, t1, t2, List.take_append_drop]
  exact ⟨hE, by
    show (Vec.erase_at (Vec.insert Vec.cpId v idx x).1 idx).1.elems.length = _
    rw [hE]
    exact hsz.symm⟩

/-- Claim C8 witness: inserting 9 at position 1 of `[1,2,3]` and erasing
at the returned position restores `[1,2,3]`. -/
theorem claim_C8_witness :
    1 ≤ (⟨[1, 2, 3], 3, false⟩ : Vec Nat).size ∧
    ((Vec.erase_at (Vec.insert Vec.cpId (⟨[1, 2, 3], 3, false⟩ : Vec Nat) 1 9).1 1).1.elems =
        [1, 2, 3] ∧
      (Vec.erase_at (Vec.insert Vec.cpId (⟨[1, 2, 3], 3, false⟩ : Vec Nat) 1 9).1 1).1.size =
        (⟨[1, 2, 3], 3, false⟩ : Vec Nat).size) :=
  ⟨by decide, claim_C8 (⟨[1, 2, 3], 3, false⟩ : Vec Nat) 1 9 (by decide)⟩

/-- Claim C1: whenever an element copy-construction failure occurs during
`reserve`, during `push_back`-triggered growth, or during copy
construction, the container (for copy construction nothing of the source
is mutated at all) is left exactly as it was before the call, the
partially constructed elements — the copies of the source prefix before
the throwing element — are destroyed in reverse construction order, and
the newly allocated block is deleted (trace `alloc` then `dealloc`). -/
theorem claim_C1 {α : Type} (cp : α → Option α) (v other : Vec α) (n : Nat)
    (x : α) (ds : List α) (evs : List HEvent) :
    (∀ v0, Vec.reserve cp v n = (v0, .error ds, evs) →
      v0 = v ∧ Vec.DestroyedRev cp v.elems ds ∧
      evs = [.alloc n, .dealloc false]) ∧
    (∀ v0, v.size = v.cap → Vec.push_back cp v x = (v0, .error ds, evs) →
      v0 = v ∧
      (Vec.DestroyedRev cp v.elems ds ∨
        (cp x = none ∧
          List.Forall₂ (fun a b => cp a = some b) v.elems ds.reverse)) ∧
      evs = [.alloc (v.cap * 2 + 1), .dealloc false]) ∧
    (other.cap ≠ 0 → Vec.copy_ctor cp other = (.error ds, evs) →
      Vec.DestroyedRev cp other.elems ds ∧
      evs = [.alloc other.size, .dealloc false]) := by
  refine ⟨?_, ?_, ?_⟩
  · intro v0 hres
    unfold Vec.reserve at hres
    by_cases hgt : n > v.cap
    · rw [if_pos hgt] at hres
      unfold Vec.reallocate at hres
      cases hu : Vec.uninitialized_copy_n_with_reverse_destroy cp v.elems with
      | ok ys => rw [hu] at hres; simp [Vec.swap_data] at hres
      | error d =>
        rw [hu] at hres
        simp only [Prod.mk.injEq, Except.error.injEq] at hres
        obtain ⟨h1, h2, h3⟩ := hres
        subst h2
        exact ⟨h1.symm, Vec.ucrd_error cp v.elems d hu, h3.symm⟩
    · rw [if_neg hgt] at hres
      simp at hres
  · intro v0 hc hpb
    unfold Vec.push_back at hpb
    rw [if_pos hc] at hpb
    unfold Vec.reallocate at hpb
    cases hu : Vec.uninitialized_copy_n_with_reverse_destroy cp v.elems with
    | error d =>
      rw [hu] at hpb
      simp only [Prod.mk.injEq, Except.error.injEq] at hpb
      obtain ⟨h1, h2, h3⟩ := hpb
      subst h2
      exact ⟨h1.symm, Or.inl (Vec.ucrd_error cp v.elems d hu), h3.symm⟩
    | ok new_data =>
      rw [hu] at hpb
      cases hx : cp x with
      | some y => rw [hx] at hpb; simp [Vec.swap_data] at hpb
      | none =>
        rw [hx] at hpb
        simp only [Prod.mk.injEq, Except.error.injEq] at hpb
        obtain ⟨h1, h2, h3⟩ := hpb
        refine ⟨h1.symm, Or.inr ⟨rfl, ?_⟩, by rw [← h3]; rfl⟩
        rw [← h2, List.reverse_reverse]
        exact Vec.ucrd_ok cp v.elems new_data hu
  · intro hcap hcc
    simp only [Vec.copy_ctor] at hcc
    rw [if_pos hcap, decide_eq_false hcap] at hcc
    cases hu : Vec.uninitialized_copy_n_with_reverse_destroy cp other.elems with
    | ok ys => rw [hu] at hcc; simp at hcc
    | error d =>
      rw [hu] at hcc
      simp only [Prod.mk.injEq, Except.error.injEq] at hcc
      obtain ⟨h2, h3⟩ := hcc
      subst h2
      exact ⟨Vec.ucrd_error cp other.elems d hu, by rw [← h3]; rfl⟩

/-- Claim C1 witness: with a copy constructor that throws on the value 0,
`reserve 5` on `[1, 0]` fails, leaves the container untouched, destroys
the single relocated copy `1`, and the trace is `alloc 5` then a
`dealloc` of the non-null new block. -/
theorem claim_C1_witness :
    Vec.reserve Vec.cpF (⟨[1, 0], 2, false⟩ : Vec Nat) 5 =
      ((⟨[1, 0], 2, false⟩ : Vec Nat), .error [1],
        [HEvent.alloc 5, HEvent.dealloc false]) ∧
    ((⟨[1, 0], 2, false⟩ : Vec Nat) = (⟨[1, 0], 2, false⟩ : Vec Nat) ∧
      Vec.DestroyedRev Vec.cpF (⟨[1, 0], 2, false⟩ : Vec Nat).elems [1] ∧
      [HEvent.alloc 5, HEvent.dealloc false] =
        [HEvent.alloc 5, HEvent.dealloc false]) :=
  ⟨by rfl,
    (claim_C1 Vec.cpF (⟨[1, 0], 2, false⟩ : Vec Nat)
      (⟨[], 0, true⟩ : Vec Nat) 5 0 [1]
      [HEvent.alloc 5, HEvent.dealloc false]).1
      (⟨[1, 0], 2, false⟩ : Vec Nat) (by rfl)⟩

/-- Claim C2 is violated by the code: move construction leaves the source
with its old nonzero `capacity_` but a null `data_`, and copy
construction from a source with `size == 0` and `capacity > 0` produces
`capacity == 0` with a non-null zero-slot block; both states break the
invariant that the storage pointer is null exactly when capacity is 0. -/
theorem claim_C2_bug :
    (Vec.move_ctor (⟨[3, 4], 2, false⟩ : Vec Nat)).2 = ⟨[], 2, true⟩ ∧
    ¬ Vec.Inv (Vec.move_ctor (⟨[3, 4], 2, false⟩ : Vec Nat)).2 ∧
    (Vec.copy_ctor Vec.cpId (⟨[], 3, false⟩ : Vec Nat)).1 =
      .ok ⟨[], 0, false⟩ ∧
    ¬ Vec.Inv (⟨[], 0, false⟩ : Vec Nat) :=
  ⟨rfl, by decide, rfl, by decide⟩

/-- Claim C5 is violated by the code: the destination of a move receives
the elements, size and capacity of the source, but the source is left with
`size == 0`, `data_ == nullptr` and its OLD capacity — not the
default-constructed empty state the claim requires. -/
theorem claim_C5_bug :
    Vec.move_ctor (⟨[7], 1, false⟩ : Vec Nat) =
      ((⟨[7], 1, false⟩ : Vec Nat), (⟨[], 1, true⟩ : Vec Nat)) ∧
    (Vec.move_ctor (⟨[7], 1, false⟩ : Vec Nat)).2.cap ≠ 0 ∧
    (Vec.move_ctor (⟨[7], 1, false⟩ : Vec Nat)).2 ≠ Vec.vecDefault :=
  ⟨rfl, by decide, by decide⟩

/-- Claim C9 is violated by the code on the empty branch: shrinking an
empty vector that owns a block (non-null `data_`) nulls the pointer and
zeroes the capacity but performs no `operator delete` — the heap-event
trace is empty, so the block is leaked, not released.  The non-empty
`size != capacity` branch does reallocate to exactly `size` slots as the
claim states. -/
theorem claim_C9_bug :
    Vec.shrink_to_fit Vec.cpId (⟨[], 1, false⟩ : Vec Nat) =
      ((⟨[], 0, true⟩ : Vec Nat), .ok (), ([] : List HEvent)) ∧
    (⟨[], 1, false⟩ : Vec Nat).dataNull = false ∧
    Vec.shrink_to_fit Vec.cpId (⟨[1, 2], 7, false⟩ : Vec Nat) =
      ((⟨[1, 2], 2, false⟩ : Vec Nat), .ok (),
        [HEvent.alloc 2, HEvent.dealloc false]) :=
  ⟨rfl, rfl, rfl⟩
